import Mathlib

/-!
Verification of the bordered Game-of-Life engine (`Life.h`).

The C++ `Life<T>` template stores a flat row-major `std::vector<T>` of
`(height+2) * (width+2)` cells (a one-cell border frame around the
`height * width` interior).  The template only requires of `T` a
border constructor `T(true)`, a parse constructor `T(char)`,
`is_alive()`, and `operator+(cell, neighbors)`; we model that interface
as the structure `CellOps` and the engine generically over it, exactly
as the template is generic over `T`.
-/

namespace GameOfLife

/-- Operations the `Life<T>` template requires of its cell type `T`. -/
structure CellOps (C : Type) where
  isAlive : C → Bool
  isBorder : C → Bool
  plus : C → List C → C
  mkBorder : C
  ofChar : Char → C

/-- State of a `Life<T>` object: logical dimensions, the flat physical
board of `(height+2)*(width+2)` cells, and the two counters. -/
structure Life (C : Type) where
  height : Nat
  width : Nat
  board : List C
  generation : Nat
  population : Nat
deriving DecidableEq

/-- Flat physical index of interior coordinate `(x, y)`:
`at(x, y)` returns `board.at((x+1)*(width+2)+y+1)`. -/
def phys (w x y : Nat) : Nat := (x + 1) * (w + 2) + (y + 1)

/-- The eight flat indices read from the snapshot `temp_board` in
`evolve_all`, in the exact textual order of the source (the source
comments label them up, right, down, left, top-right, bottom-right,
bottom-left, top-left). -/
def neighborIdxs (w x y : Nat) : List Nat :=
  [(x + 1) * (w + 2) + y,
   (x + 2) * (w + 2) + (y + 1),
   (x + 1) * (w + 2) + (y + 2),
   x * (w + 2) + (y + 1),
   (x + 2) * (w + 2) + y,
   (x + 2) * (w + 2) + (y + 2),
   x * (w + 2) + (y + 2),
   x * (w + 2) + y]

/-- The eight neighbor cells gathered for interior `(x, y)`.  All eight
indices are proved in bounds, so the `getD` default is never used. -/
def neighborsAt (ops : CellOps C) (bd : List C) (w x y : Nat) : List C :=
  (neighborIdxs w x y).map (fun i => bd.getD i ops.mkBorder)

/-- Interior coordinates `(x, y)`, `x < h`, `y < w`, in the row-major
order of the two nested `for` loops of `evolve_all`. -/
def rowMajor (h w : Nat) : List (Nat × Nat) :=
  ((List.range h).map (fun x => (List.range w).map (fun y => (x, y)))).flatten

/-- One iteration of the inner loop body of `evolve_all`: read the cell
from the live board (`const T& cell = at(x, y)`), gather neighbors from
the snapshot, form `cell + neighbors`, count it if alive, overwrite the
slot in place. -/
def evolveCellStep (ops : CellOps C) (w : Nat) (temp : List C)
    (acc : List C × Nat) (p : Nat × Nat) : List C × Nat :=
  let cell := acc.1.getD (phys w p.1 p.2) ops.mkBorder
  let newCell := ops.plus cell (neighborsAt ops temp w p.1 p.2)
  (acc.1.set (phys w p.1 p.2) newCell,
   if ops.isAlive newCell then acc.2 + 1 else acc.2)

/-- The `evolve_all` member function: reset `population` to 0, snapshot
the board into `temp_board`, scan the interior in row-major order
overwriting in place, then increment `generation`. -/
def evolveAll (ops : CellOps C) (l : Life C) : Life C :=
  let res := (rowMajor l.height l.width).foldl
    (evolveCellStep ops l.width l.board) (l.board, 0)
  { l with board := res.1, population := res.2, generation := l.generation + 1 }

/-- Pure synchronous update, written as the specification describes it: a
map over the whole physical board that sends every interior position to
`old_cell + neighbors_of_old_board` and leaves every other position
unchanged, every output computed from the old board alone. -/
def syncBoard (ops : CellOps C) (h w : Nat) (bd : List C) : List C :=
  (List.range ((h + 2) * (w + 2))).map (fun i =>
    if 1 ≤ i / (w + 2) ∧ i / (w + 2) ≤ h ∧ 1 ≤ i % (w + 2) ∧ i % (w + 2) ≤ w then
      ops.plus (bd.getD i ops.mkBorder)
        (neighborsAt ops bd w (i / (w + 2) - 1) (i % (w + 2) - 1))
    else bd.getD i ops.mkBorder)

/-- Ways the constructor can abort: a failed `assert`, or
`std::vector::at` called with an index outside the storage. -/
inductive BuildErr
  | assertFail
  | atOutOfRange
deriving DecidableEq

/-- The character-reading loop of the constructor
`Life(std::istream& in, int h, int w)`.  An exhausted list models EOF;
a newline at column 0 breaks out of the loop; any other newline bumps
the row and asserts the finished line had exactly `width` characters;
any other character is parsed, counted if alive, and written through the
bounds-checked `at(x, y)`.  Returns the board, the population counter
and the final row index `x`. -/
def buildLoop (ops : CellOps C) (w : Nat) :
    List Char → Nat → Nat → List C → Nat → Except BuildErr (List C × Nat × Nat)
  | [], x, _, bd, pop => .ok (bd, pop, x)
  | c :: cs, x, y, bd, pop =>
    if c = '\n' then
      if y = 0 then .ok (bd, pop, x)
      else if y = w then buildLoop ops w cs (x + 1) 0 bd pop
      else .error .assertFail
    else
      let cell := ops.ofChar c
      let pop2 := if ops.isAlive cell then pop + 1 else pop
      if phys w x y < bd.length then
        buildLoop ops w cs x (y + 1) (bd.set (phys w x y) cell) pop2
      else .error .atOutOfRange

/-- The constructor `Life(std::istream& in, int h, int w)`: fill the
whole `(w+2)*(h+2)` storage with border cells `T(true)`, run the
reading loop from `(x, y) = (0, 0)` with `generation = 0` and
`population = 0`, and finally `assert(x == height)`. -/
def constructLife (ops : CellOps C) (input : List Char) (h w : Nat) :
    Except BuildErr (Life C) :=
  match buildLoop ops w input 0 0 (List.replicate ((w + 2) * (h + 2)) ops.mkBorder) 0 with
  | .error e => .error e
  | .ok (bd, pop, x) =>
    if x = h then .ok ⟨h, w, bd, 0, pop⟩ else .error .assertFail

/-- The signed flat index `(x+1)*(width+2)+y+1` computed by `at(x, y)`
for possibly negative `int` arguments. -/
def atIdx (w : Nat) (x y : Int) : Int := (x + 1) * ((w : Int) + 2) + (y + 1)

/-- The accessor `T& at(int x, int y)`, which calls
`board.at((x+1)*(width+2)+y+1)`: `none` models the `std::out_of_range`
exception thrown when the index (converted to `size_type`) is outside
the storage, `some` the returned reference. -/
def atCell (ops : CellOps C) (l : Life C) (x y : Int) : Option C :=
  if 0 ≤ atIdx l.width x y ∧ atIdx l.width x y < (l.board.length : Int) then
    some (l.board.getD (atIdx l.width x y).toNat ops.mkBorder)
  else none

/-- The iterator increment `operator++`: `y++; if (y >= width) { x++; y = 0 }`.
On the paths the claims exercise both coordinates stay nonnegative, so
they are modelled as naturals. -/
def iterInc (w : Nat) (p : Nat × Nat) : Nat × Nat :=
  if w ≤ p.2 + 1 then (p.1 + 1, 0) else (p.1, p.2 + 1)

/-- `begin()` constructs `iterator(*this, 0, 0)`. -/
def beginIter : Nat × Nat := (0, 0)

/-- `end()` constructs `iterator(*this, height - 1, width)`. -/
def endIter (h w : Nat) : Nat × Nat := (h - 1, w)

/-- Count of alive cells currently stored at the interior coordinates of
a board (an independent recount, as the spec's population test demands). -/
def countAliveInterior (ops : CellOps C) (l : Life C) : Nat :=
  (rowMajor l.height l.width).countP
    (fun p => ops.isAlive (l.board.getD (phys l.width p.1 p.2) ops.mkBorder))

/-- Encoding of a list of newline-free lines as the character stream fed
to the constructor: every line followed by one newline. -/
def encodeLines (lines : List (List Char)) : List Char :=
  (lines.map (fun l => l ++ ['\n'])).flatten

/-- Alive count among the parsed cells of one input line. -/
def countAliveChars (ops : CellOps C) (cs : List Char) : Nat :=
  cs.countP (fun c => ops.isAlive (ops.ofChar c))

/-- Board after writing the parsed cells of one line into row `x`
starting at column `y` (the repeated `at(x, y) = T(input); y++`). -/
def writeChars (ops : CellOps C) (w x : Nat) (bd : List C) (y : Nat) :
    List Char → List C
  | [] => bd
  | c :: cs => writeChars ops w x (bd.set (phys w x y) (ops.ofChar c)) (y + 1) cs

/-- Board after writing a list of lines into consecutive rows from `x`. -/
def writeLines (ops : CellOps C) (w : Nat) (bd : List C) (x : Nat) :
    List (List Char) → List C
  | [] => bd
  | line :: rest => writeLines ops w (writeChars ops w x bd 0 line) (x + 1) rest

/-- Total alive count over a list of input lines. -/
def aliveTotal (ops : CellOps C) (lines : List (List Char)) : Nat :=
  (lines.map (fun l => countAliveChars ops l)).sum

/-- A physical index on the one-cell frame: its row is 0 or `h+1`, or
its column is 0 or `w+1`. -/
def isFrame (h w i : Nat) : Prop :=
  i / (w + 2) = 0 ∨ i / (w + 2) = h + 1 ∨ i % (w + 2) = 0 ∨ i % (w + 2) = w + 1

/-- The `ConwayCell` record: the `alive` and `border` flags of
`AbstractCell`. -/
structure ConwayCell where
  alive : Bool
  border : Bool
deriving DecidableEq

/-- The constructor `ConwayCell(bool border_)`, which runs
`AbstractCell(border_) : border(border_) {}`.  The source never assigns
`alive` on this path, so the indeterminate initial value of the `alive`
field is passed in explicitly as `indet`. -/
def ConwayCell.ofBorder (indet : Bool) (b : Bool) : ConwayCell := ⟨indet, b⟩

/-- Modelled from the spec: the body of `ConwayCell(const char& input)`
is absent from the sources (only declared); the spec says `'*'` parses
alive, `'.'` dead, producing a non-border interior cell. -/
def ConwayCell.ofChar (c : Char) : ConwayCell := ⟨c == '*', false⟩

/-- Number of alive neighbors, border neighbors counting as dead. -/
def conwayLiveCount (ns : List ConwayCell) : Nat :=
  (ns.filter (fun m => m.alive && !m.border)).length

/-- Modelled from the spec: the body of `ConwayCell::evolve` is absent
from the sources (only declared).  Per the spec the cell is alive next
generation iff (alive and exactly 2 or 3 alive neighbors) or (dead and
exactly 3 alive neighbors), border neighbors counting as dead, and a
border cell's evolve is a no-op. -/
def ConwayCell.evolve (c : ConwayCell) (ns : List ConwayCell) : ConwayCell :=
  if c.border then c
  else
    ⟨(c.alive && (conwayLiveCount ns == 2 || conwayLiveCount ns == 3)) ||
       (!c.alive && conwayLiveCount ns == 3), false⟩

/-- The `Life<ConwayCell>` instantiation.  `plus` models the declared
friend `operator+(old_cell, neighbors)` whose body is also absent; per
the spec it computes the evolved cell. -/
def conwayOps (indet : Bool) : CellOps ConwayCell :=
  ⟨ConwayCell.alive, ConwayCell.border, ConwayCell.evolve,
   ConwayCell.ofBorder indet true, ConwayCell.ofChar⟩

/-- The two rule families of the program. -/
inductive RuleFamily
  | conway
  | fredkin
deriving DecidableEq

/-- Value of the concrete object a `Cell`'s `acell` pointer owns: a
`ConwayCell` or a `FredkinCell` (with its `age_` field). -/
inductive AbstractCellVal
  | conwayCell (alive border : Bool)
  | fredkinCell (alive border : Bool) (age : Int)
deriving DecidableEq

/-- Rule family of an owned cell object. -/
def AbstractCellVal.family : AbstractCellVal → RuleFamily
  | .conwayCell _ _ => .conway
  | .fredkinCell _ _ _ => .fredkin

/-- The polymorphic `Cell` wrapper that owns one `AbstractCell`. -/
structure Cell where
  acell : AbstractCellVal
deriving DecidableEq

/-- The constructor `Cell(bool border_) : acell(new ConwayCell(border_))`:
it always allocates a `ConwayCell`, whatever family the board uses; the
`alive` field is again left unassigned (`indet`). -/
def Cell.ofBorder (indet : Bool) (b : Bool) : Cell := ⟨.conwayCell indet b⟩

/-- Rule family of a wrapped cell. -/
def Cell.family (c : Cell) : RuleFamily := c.acell.family

/-- Liveness of a wrapped cell (delegates to the owned object). -/
def Cell.isAliveC : Cell → Bool
  | ⟨.conwayCell a _⟩ => a
  | ⟨.fredkinCell a _ _⟩ => a

/-- Border flag of a wrapped cell (delegates to the owned object). -/
def Cell.isBorderC : Cell → Bool
  | ⟨.conwayCell _ b⟩ => b
  | ⟨.fredkinCell _ b _⟩ => b

/-- A `Life<Cell>` instantiation with an arbitrary parse constructor and
an arbitrary `operator+` (their bodies are absent from the sources; the
theorems about the border frame hold for every choice). -/
def cellOpsWith (parse : Char → Cell) (pl : Cell → List Cell → Cell)
    (indet : Bool) : CellOps Cell :=
  ⟨Cell.isAliveC, Cell.isBorderC, pl, Cell.ofBorder indet true, parse⟩

/-- Marker cells: a `Life<Nat>`-style instantiation whose cells are bare
naturals, used to exhibit which physical slots the neighbor gather
reads (the spec's own suggested test: a hand-built board with distinct
markers). -/
def markOps : CellOps Nat :=
  ⟨fun _ => false, fun _ => false, fun n _ => n, 99, fun _ => 0⟩

/-- New value the specification assigns to interior coordinate `p`: the
old cell at `p` combined with its eight old neighbors. -/
def newCellAt (ops : CellOps C) (w : Nat) (temp : List C) (p : Nat × Nat) : C :=
  ops.plus (temp.getD (phys w p.1 p.2) ops.mkBorder) (neighborsAt ops temp w p.1 p.2)

/-- Variant of `evolveCellStep` that reads the current cell from the
snapshot instead of the live board; the refinement proof shows the two
folds coincide. -/
def specCellStep (ops : CellOps C) (w : Nat) (temp : List C)
    (acc : List C × Nat) (p : Nat × Nat) : List C × Nat :=
  (acc.1.set (phys w p.1 p.2) (newCellAt ops w temp p),
   if ops.isAlive (newCellAt ops w temp p) then acc.2 + 1 else acc.2)

/-- A Fredkin-family filler cell, used as a `getD` default so that the
frame theorems about `Life<Cell>` cannot be satisfied by the default. -/
def fredkinJunk : Cell := ⟨.fredkinCell false false 0⟩

/-- The input stream of two proper `..` lines followed by a trailing
`*` not terminated by a newline. -/
def badInput : List Char := ['.', '.', '\n', '.', '.', '\n', '*']

/-- A hand-built 1 by 1 `Life<ConwayCell>` state (all nine physical
slots border cells). -/
def oneByOne : Life ConwayCell :=
  ⟨1, 1, List.replicate 9 (ConwayCell.ofBorder false true), 0, 0⟩

/-- The state built from the `badInput` stream on a 2 by 2 board. -/
def badLife : Life ConwayCell :=
  (constructLife (conwayOps false) badInput 2 2).toOption.getD oneByOne

/-- The state built from the single line `*` on a 1 by 1 board. -/
def starLife : Life ConwayCell :=
  (constructLife (conwayOps false) (encodeLines [['*']]) 1 1).toOption.getD oneByOne

/-- Eight Conway neighbors of which exactly the first three are alive. -/
def threeAlive : List ConwayCell :=
  [⟨true, false⟩, ⟨true, false⟩, ⟨true, false⟩, ⟨false, false⟩,
   ⟨false, false⟩, ⟨false, false⟩, ⟨false, false⟩, ⟨false, false⟩]

/-- A sample parse constructor for `Life<Cell>` producing Fredkin
interior cells (the border theorems hold for every choice). -/
def constParse : Char → Cell := fun _ => ⟨.fredkinCell true false 0⟩

/-- A sample `operator+` for `Life<Cell>`. -/
def constPlus : Cell → List Cell → Cell := fun c _ => c

/-- An empty `Life<Cell>` board built with the Fredkin parse constructor. -/
def cellLife00 : Life Cell :=
  (constructLife (cellOpsWith constParse constPlus false) [] 0 0).toOption.getD
    ⟨0, 0, [], 0, 0⟩

/-! Basic list access lemmas. -/

lemma getD_eq_getElem {α : Type u} (l : List α) (d : α) {i : Nat} (h : i < l.length) :
    l.getD i d = l[i] := by
  rw [List.getD_eq_getElem?_getD, List.getElem?_eq_getElem h]
  rfl

lemma getD_set_self {α : Type u} (bd : List α) {i : Nat} (v d : α) (h : i < bd.length) :
    (bd.set i v).getD i d = v := by
  rw [List.getD_eq_getElem?_getD, List.getElem?_set_self h]
  rfl

lemma getD_set_ne {α : Type u} (bd : List α) {i j : Nat} (h : i ≠ j) (v d : α) :
    (bd.set i v).getD j d = bd.getD j d := by
  rw [List.getD_eq_getElem?_getD, List.getElem?_set_ne h, ← List.getD_eq_getElem?_getD]

lemma getD_replicate {α : Type u} {n i : Nat} (a d : α) (h : i < n) :
    (List.replicate n a).getD i d = a := by
  rw [getD_eq_getElem (List.replicate n a) d (by simpa using h)]
  exact List.getElem_replicate a _

/-! Arithmetic of the flat index `phys`. -/

lemma phys_eq (w x y : Nat) : phys w x y = (y + 1) + (w + 2) * (x + 1) := by
  unfold phys
  ring

lemma phys_div (w x y : Nat) (h : y < w + 1) : phys w x y / (w + 2) = x + 1 := by
  rw [phys_eq, Nat.add_mul_div_left _ _ (by omega), Nat.div_eq_of_lt (by omega)]
  omega

lemma phys_mod (w x y : Nat) (h : y < w + 1) : phys w x y % (w + 2) = y + 1 := by
  rw [phys_eq, Nat.add_mul_mod_self_left, Nat.mod_eq_of_lt (by omega)]

lemma phys_lt (h w x y : Nat) (hx : x < h) (hy : y < w) :
    phys w x y < (h + 2) * (w + 2) := by
  unfold phys
  calc (x + 1) * (w + 2) + (y + 1)
      < (x + 1) * (w + 2) + (w + 2) := Nat.add_lt_add_left (by omega) _
    _ = (x + 2) * (w + 2) := by ring
    _ ≤ (h + 2) * (w + 2) := Nat.mul_le_mul_right _ (by omega)

lemma phys_col_inj (w x : Nat) {a b : Nat} (h : a ≠ b) : phys w x a ≠ phys w x b := by
  intro heq
  unfold phys at heq
  omega

lemma phys_ge (w x y : Nat) : w + 3 ≤ phys w x y := by
  unfold phys
  have h1 : 1 * (w + 2) ≤ (x + 1) * (w + 2) := Nat.mul_le_mul_right _ (by omega)
  omega

lemma phys_ne_of_ne (w : Nat) {x1 y1 x2 y2 : Nat} (hy1 : y1 < w) (hy2 : y2 < w)
    (h : (x1, y1) ≠ (x2, y2)) : phys w x1 y1 ≠ phys w x2 y2 := by
  intro heq
  have hd1 := phys_div w x1 y1 (by omega)
  have hd2 := phys_div w x2 y2 (by omega)
  have hm1 := phys_mod w x1 y1 (by omega)
  have hm2 := phys_mod w x2 y2 (by omega)
  rw [heq] at hd1 hm1
  apply h
  have hx : x1 = x2 := by omega
  have hy : y1 = y2 := by omega
  rw [hx, hy]

lemma phys_not_frame (h w x y : Nat) (hx : x < h) (hy : y < w) :
    ¬ isFrame h w (phys w x y) := by
  unfold isFrame
  rw [phys_div w x y (by omega), phys_mod w x y (by omega)]
  omega

lemma frame_or_phys (h w i : Nat) (hi : i < (h + 2) * (w + 2)) :
    isFrame h w i ∨ ∃ x y, x < h ∧ y < w ∧ phys w x y = i := by
  by_cases hf : isFrame h w i
  · exact Or.inl hf
  · right
    unfold isFrame at hf
    push_neg at hf
    obtain ⟨h1, h2, h3, h4⟩ := hf
    have hc : i % (w + 2) < w + 2 := Nat.mod_lt _ (by omega)
    have hr : i / (w + 2) < h + 2 := (Nat.div_lt_iff_lt_mul (by omega)).2 hi
    have hdm : (w + 2) * (i / (w + 2)) + i % (w + 2) = i := Nat.div_add_mod i (w + 2)
    have key1 : ∀ r : Nat, r ≠ 0 → r ≠ h + 1 → r < h + 2 → r - 1 < h := by
      intro r a b c
      omega
    have key2 : ∀ c : Nat, c ≠ 0 → c ≠ w + 1 → c < w + 2 → c - 1 < w := by
      intro c a b cc
      omega
    have key3 : ∀ r : Nat, r ≠ 0 → r - 1 + 1 = r := by
      intro r a
      omega
    refine ⟨i / (w + 2) - 1, i % (w + 2) - 1, key1 _ h1 h2 hr, key2 _ h3 h4 hc, ?_⟩
    unfold phys
    rw [key3 _ h1, key3 _ h3, Nat.mul_comm]
    exact hdm

lemma neighborIdx_lt (h w x y : Nat) (hx : x < h) (hy : y < w) :
    ∀ i ∈ neighborIdxs w x y, i < (h + 2) * (w + 2) := by
  have hmax : (x + 2) * (w + 2) + (y + 2) < (h + 2) * (w + 2) := by
    calc (x + 2) * (w + 2) + (y + 2)
        < (x + 2) * (w + 2) + (w + 2) := Nat.add_lt_add_left (by omega) _
      _ = (x + 3) * (w + 2) := by ring
      _ ≤ (h + 2) * (w + 2) := Nat.mul_le_mul_right _ (by omega)
  have key : ∀ a b : Nat, a ≤ x + 2 → b ≤ y + 2 → a * (w + 2) + b < (h + 2) * (w + 2) := by
    intro a b ha hb
    calc a * (w + 2) + b
        ≤ (x + 2) * (w + 2) + (y + 2) :=
          Nat.add_le_add (Nat.mul_le_mul_right _ ha) hb
      _ < (h + 2) * (w + 2) := hmax
  intro i hi
  simp only [neighborIdxs, List.mem_cons, List.not_mem_nil, or_false] at hi
  rcases hi with rfl | rfl | rfl | rfl | rfl | rfl | rfl | rfl <;>
    [exact key (x + 1) y (by omega) (by omega);
     exact key (x + 2) (y + 1) (by omega) (by omega);
     exact key (x + 1) (y + 2) (by omega) (by omega);
     exact key x (y + 1) (by omega) (by omega);
     exact key (x + 2) y (by omega) (by omega);
     exact key (x + 2) (y + 2) (by omega) (by omega);
     exact key x (y + 2) (by omega) (by omega);
     exact key x y (by omega) (by omega)]

/-! Structure of the row-major scan order. -/

lemma mem_rowMajor {h w : Nat} {p : Nat × Nat} :
    p ∈ rowMajor h w ↔ p.1 < h ∧ p.2 < w := by
  unfold rowMajor
  constructor
  · intro hp
    rw [List.mem_flatten] at hp
    obtain ⟨lx, hlx, hpl⟩ := hp
    rw [List.mem_map] at hlx
    obtain ⟨x, hx, rfl⟩ := hlx
    rw [List.mem_map] at hpl
    obtain ⟨y, hy, rfl⟩ := hpl
    rw [List.mem_range] at hx hy
    exact ⟨hx, hy⟩
  · intro hp
    rw [List.mem_flatten]
    refine ⟨(List.range w).map (fun y => (p.1, y)), ?_, ?_⟩
    · rw [List.mem_map]
      exact ⟨p.1, List.mem_range.2 hp.1, rfl⟩
    · rw [List.mem_map]
      exact ⟨p.2, List.mem_range.2 hp.2, rfl⟩

lemma phys_lt_phys_row (w x : Nat) {a b : Nat} (hab : a < b) :
    phys w x a < phys w x b := by
  unfold phys
  exact Nat.add_lt_add_left (by omega) _

lemma phys_lt_phys_cross (w : Nat) {x1 x2 a b : Nat} (hx : x1 < x2) (ha : a < w) :
    phys w x1 a < phys w x2 b := by
  unfold phys
  calc (x1 + 1) * (w + 2) + (a + 1)
      < (x1 + 1) * (w + 2) + (w + 2) := Nat.add_lt_add_left (by omega) _
    _ = (x1 + 2) * (w + 2) := by ring
    _ ≤ (x2 + 1) * (w + 2) := Nat.mul_le_mul_right _ (by omega)
    _ ≤ (x2 + 1) * (w + 2) + (b + 1) := Nat.le_add_right _ _

lemma rowMajor_pairwise (h w : Nat) :
    List.Pairwise (fun p q : Nat × Nat => phys w p.1 p.2 ≠ phys w q.1 q.2) (rowMajor h w) := by
  have hlt : List.Pairwise (fun p q : Nat × Nat => phys w p.1 p.2 < phys w q.1 q.2)
      (rowMajor h w) := by
    unfold rowMajor
    rw [List.pairwise_flatten]
    constructor
    · intro l hl
      rw [List.mem_map] at hl
      obtain ⟨x, hx, rfl⟩ := hl
      rw [List.pairwise_map]
      exact (List.pairwise_lt_range w).imp (fun hab => phys_lt_phys_row w x hab)
    · rw [List.pairwise_map]
      refine (List.pairwise_lt_range h).imp ?_
      intro x1 x2 hx12 p hp q hq
      rw [List.mem_map] at hp hq
      obtain ⟨a, ha, rfl⟩ := hp
      obtain ⟨b, hb, rfl⟩ := hq
      rw [List.mem_range] at ha
      exact phys_lt_phys_cross w hx12 ha
  exact hlt.imp (fun h2 => Nat.ne_of_lt h2)

/-! Folds that overwrite a list of pairwise-distinct slots. -/

lemma setFold_length (w : Nat) (f : Nat × Nat → C) :
    ∀ (ps : List (Nat × Nat)) (b : List C),
      (ps.foldl (fun bb p => bb.set (phys w p.1 p.2) (f p)) b).length = b.length := by
  intro ps
  induction ps with
  | nil => intro b; rfl
  | cons p ps ih =>
    intro b
    rw [List.foldl_cons, ih, List.length_set]

lemma setFold_getD_not (w : Nat) (f : Nat × Nat → C) :
    ∀ (ps : List (Nat × Nat)) (b : List C) (i : Nat) (d : C),
      (∀ p ∈ ps, phys w p.1 p.2 ≠ i) →
      (ps.foldl (fun bb p => bb.set (phys w p.1 p.2) (f p)) b).getD i d = b.getD i d := by
  intro ps
  induction ps with
  | nil =>
    intro b i d _
    rfl
  | cons p ps ih =>
    intro b i d hp
    rw [List.foldl_cons, ih _ i d (fun q hq => hp q (List.mem_cons_of_mem _ hq))]
    exact getD_set_ne b (hp p (List.mem_cons_self _ _)) _ _

lemma setFold_getD_mem (w : Nat) (f : Nat × Nat → C) :
    ∀ (ps : List (Nat × Nat)) (b : List C) (p : Nat × Nat) (d : C),
      p ∈ ps →
      List.Pairwise (fun p q : Nat × Nat => phys w p.1 p.2 ≠ phys w q.1 q.2) ps →
      phys w p.1 p.2 < b.length →
      (ps.foldl (fun bb q => bb.set (phys w q.1 q.2) (f q)) b).getD (phys w p.1 p.2) d = f p := by
  intro ps
  induction ps with
  | nil =>
    intro b p d hp _ _
    exact absurd hp (List.not_mem_nil _)
  | cons q ps ih =>
    intro b p d hp hpw hb
    rw [List.foldl_cons]
    rcases List.mem_cons.1 hp with rfl | hmem
    · rw [setFold_getD_not w f ps _ _ d
        (fun r hr => (List.rel_of_pairwise_cons hpw hr).symm)]
      exact getD_set_self b _ _ hb
    · exact ih _ p d hmem hpw.of_cons (by rw [List.length_set]; exact hb)

/-! The in-place scan of `evolve_all` agrees with the snapshot-reading
scan, because each slot is read before any later slot overwrites it. -/

lemma fold_live_eq_spec (ops : CellOps C) (w : Nat) (temp : List C) :
    ∀ (ps : List (Nat × Nat)) (b : List C) (pop : Nat),
      (∀ q ∈ ps, b.getD (phys w q.1 q.2) ops.mkBorder =
        temp.getD (phys w q.1 q.2) ops.mkBorder) →
      List.Pairwise (fun p q : Nat × Nat => phys w p.1 p.2 ≠ phys w q.1 q.2) ps →
      ps.foldl (evolveCellStep ops w temp) (b, pop) =
        ps.foldl (specCellStep ops w temp) (b, pop) := by
  intro ps
  induction ps with
  | nil =>
    intro b pop _ _
    rfl
  | cons p ps ih =>
    intro b pop hq hpw
    rw [List.foldl_cons, List.foldl_cons]
    have hcell : evolveCellStep ops w temp (b, pop) p = specCellStep ops w temp (b, pop) p := by
      unfold evolveCellStep specCellStep newCellAt
      rw [hq p (List.mem_cons_self _ _)]
    rw [hcell]
    exact ih (b.set (phys w p.1 p.2) (newCellAt ops w temp p))
      (if ops.isAlive (newCellAt ops w temp p) then pop + 1 else pop)
      (fun q hq2 => by
        rw [getD_set_ne _ (List.rel_of_pairwise_cons hpw hq2) _ _]
        exact hq q (List.mem_cons_of_mem _ hq2))
      hpw.of_cons

lemma fold_spec_board (ops : CellOps C) (w : Nat) (temp : List C) :
    ∀ (ps : List (Nat × Nat)) (b : List C) (pop : Nat),
      (ps.foldl (specCellStep ops w temp) (b, pop)).1 =
        ps.foldl (fun bb p => bb.set (phys w p.1 p.2) (newCellAt ops w temp p)) b := by
  intro ps
  induction ps with
  | nil =>
    intro b pop
    rfl
  | cons p ps ih =>
    intro b pop
    rw [List.foldl_cons, List.foldl_cons]
    exact ih _ _

lemma fold_spec_pop (ops : CellOps C) (w : Nat) (temp : List C) :
    ∀ (ps : List (Nat × Nat)) (b : List C) (pop : Nat),
      (ps.foldl (specCellStep ops w temp) (b, pop)).2 =
        pop + ps.countP (fun p => ops.isAlive (newCellAt ops w temp p)) := by
  intro ps
  induction ps with
  | nil =>
    intro b pop
    simp
  | cons p ps ih =>
    intro b pop
    rw [List.foldl_cons, List.countP_cons]
    by_cases halive : ops.isAlive (newCellAt ops w temp p) = true
    · show (ps.foldl (specCellStep ops w temp)
        (b.set (phys w p.1 p.2) (newCellAt ops w temp p),
         if ops.isAlive (newCellAt ops w temp p) then pop + 1 else pop)).2 = _
      rw [if_pos halive, ih, if_pos halive]
      omega
    · show (ps.foldl (specCellStep ops w temp)
        (b.set (phys w p.1 p.2) (newCellAt ops w temp p),
         if ops.isAlive (newCellAt ops w temp p) then pop + 1 else pop)).2 = _
      rw [if_neg halive, ih, if_neg halive]
      omega

/-! The step function of the engine, characterized. -/

lemma evolveAll_board_eq (ops : CellOps C) (l : Life C)
    (hlen : l.board.length = (l.height + 2) * (l.width + 2)) :
    (evolveAll ops l).board = syncBoard ops l.height l.width l.board := by
  have hpw := rowMajor_pairwise l.height l.width
  have hfold := fold_live_eq_spec ops l.width l.board (rowMajor l.height l.width)
    l.board 0 (fun q _ => rfl) hpw
  show ((rowMajor l.height l.width).foldl (evolveCellStep ops l.width l.board)
    (l.board, 0)).1 = _
  rw [hfold, fold_spec_board]
  apply List.ext_getElem
  · rw [setFold_length, hlen]
    unfold syncBoard
    rw [List.length_map, List.length_range]
  · intro i h1 h2
    have hi : i < (l.height + 2) * (l.width + 2) := by
      rw [setFold_length, hlen] at h1
      exact h1
    rw [← getD_eq_getElem _ ops.mkBorder h1, ← getD_eq_getElem _ ops.mkBorder h2]
    have hsync : (syncBoard ops l.height l.width l.board).getD i ops.mkBorder =
        if 1 ≤ i / (l.width + 2) ∧ i / (l.width + 2) ≤ l.height ∧
            1 ≤ i % (l.width + 2) ∧ i % (l.width + 2) ≤ l.width then
          ops.plus (l.board.getD i ops.mkBorder)
            (neighborsAt ops l.board l.width (i / (l.width + 2) - 1) (i % (l.width + 2) - 1))
        else l.board.getD i ops.mkBorder := by
      unfold syncBoard
      rw [getD_eq_getElem _ _ (by rw [List.length_map, List.length_range]; exact hi)]
      rw [List.getElem_map, List.getElem_range]
    rw [hsync]
    by_cases hint : 1 ≤ i / (l.width + 2) ∧ i / (l.width + 2) ≤ l.height ∧
        1 ≤ i % (l.width + 2) ∧ i % (l.width + 2) ≤ l.width
    · rw [if_pos hint]
      rcases frame_or_phys l.height l.width i hi with hf | hxy
      · exfalso
        unfold isFrame at hf
        obtain ⟨k1, k2, k3, k4⟩ := hint
        rcases hf with h0 | h0 | h0 | h0 <;> omega
      · obtain ⟨x, y, hx, hy, hphys⟩ := hxy
        rw [← hphys]
        rw [setFold_getD_mem l.width _ (rowMajor l.height l.width) l.board (x, y)
          ops.mkBorder (mem_rowMajor.2 ⟨hx, hy⟩) hpw
          (by rw [hlen]; exact phys_lt l.height l.width x y hx hy)]
        unfold newCellAt
        rw [phys_div _ _ _ (by omega), phys_mod _ _ _ (by omega),
          Nat.add_sub_cancel, Nat.add_sub_cancel]
    · rw [if_neg hint]
      rw [setFold_getD_not l.width _ (rowMajor l.height l.width) l.board i ops.mkBorder]
      intro p hp
      rw [mem_rowMajor] at hp
      intro heq
      apply hint
      rw [← heq, phys_div _ _ _ (by omega), phys_mod _ _ _ (by omega)]
      omega

lemma evolveAll_generation (ops : CellOps C) (l : Life C) :
    (evolveAll ops l).generation = l.generation + 1 := rfl

lemma evolveAll_height (ops : CellOps C) (l : Life C) :
    (evolveAll ops l).height = l.height := rfl

lemma evolveAll_width (ops : CellOps C) (l : Life C) :
    (evolveAll ops l).width = l.width := rfl

lemma evolveAll_length (ops : CellOps C) (l : Life C) :
    (evolveAll ops l).board.length = l.board.length := by
  have hpw := rowMajor_pairwise l.height l.width
  have hfold := fold_live_eq_spec ops l.width l.board (rowMajor l.height l.width)
    l.board 0 (fun q _ => rfl) hpw
  show ((rowMajor l.height l.width).foldl (evolveCellStep ops l.width l.board)
    (l.board, 0)).1.length = _
  rw [hfold, fold_spec_board, setFold_length]

lemma evolveAll_pop_eq (ops : CellOps C) (l : Life C)
    (hlen : l.board.length = (l.height + 2) * (l.width + 2)) :
    (evolveAll ops l).population = countAliveInterior ops (evolveAll ops l) := by
  have hpw := rowMajor_pairwise l.height l.width
  have hfold := fold_live_eq_spec ops l.width l.board (rowMajor l.height l.width)
    l.board 0 (fun q _ => rfl) hpw
  have hboard : ∀ p ∈ rowMajor l.height l.width,
      (evolveAll ops l).board.getD (phys l.width p.1 p.2) ops.mkBorder =
        newCellAt ops l.width l.board p := by
    intro p hp
    show ((rowMajor l.height l.width).foldl (evolveCellStep ops l.width l.board)
      (l.board, 0)).1.getD _ _ = _
    rw [hfold, fold_spec_board]
    exact setFold_getD_mem l.width _ (rowMajor l.height l.width) l.board p
      ops.mkBorder hp hpw
      (by rw [hlen]
          exact phys_lt l.height l.width p.1 p.2 (mem_rowMajor.1 hp).1 (mem_rowMajor.1 hp).2)
  show ((rowMajor l.height l.width).foldl (evolveCellStep ops l.width l.board)
    (l.board, 0)).2 = _
  rw [hfold, fold_spec_pop, Nat.zero_add]
  unfold countAliveInterior
  apply List.countP_congr
  intro p hp
  show ops.isAlive (newCellAt ops l.width l.board p) = true ↔
    ops.isAlive ((evolveAll ops l).board.getD (phys l.width p.1 p.2) ops.mkBorder) = true
  rw [hboard p hp]

lemma evolveAll_getD_frame (ops : CellOps C) (l : Life C) (i : Nat) (d : C)
    (hfr : ∀ x y, x < l.height → y < l.width → phys l.width x y ≠ i) :
    (evolveAll ops l).board.getD i d = l.board.getD i d := by
  have hpw := rowMajor_pairwise l.height l.width
  have hfold := fold_live_eq_spec ops l.width l.board (rowMajor l.height l.width)
    l.board 0 (fun q _ => rfl) hpw
  show ((rowMajor l.height l.width).foldl (evolveCellStep ops l.width l.board)
    (l.board, 0)).1.getD i d = _
  rw [hfold, fold_spec_board]
  exact setFold_getD_not l.width _ (rowMajor l.height l.width) l.board i d
    (fun p hp => hfr p.1 p.2 (mem_rowMajor.1 hp).1 (mem_rowMajor.1 hp).2)

lemma iterate_height (ops : CellOps C) (n : Nat) (l : Life C) :
    ((evolveAll ops)^[n] l).height = l.height := by
  induction n with
  | zero => rfl
  | succ n ih =>
    rw [Function.iterate_succ_apply']
    exact ih

lemma iterate_width (ops : CellOps C) (n : Nat) (l : Life C) :
    ((evolveAll ops)^[n] l).width = l.width := by
  induction n with
  | zero => rfl
  | succ n ih =>
    rw [Function.iterate_succ_apply']
    exact ih

lemma iterate_getD_frame (ops : CellOps C) (n : Nat) (l : Life C) (i : Nat) (d : C)
    (hfr : ∀ x y, x < l.height → y < l.width → phys l.width x y ≠ i) :
    ((evolveAll ops)^[n] l).board.getD i d = l.board.getD i d := by
  induction n with
  | zero => rfl
  | succ n ih =>
    rw [Function.iterate_succ_apply']
    have hstep := evolveAll_getD_frame ops ((evolveAll ops)^[n] l) i d
      (fun x y hx hy => by
        rw [iterate_height] at hx
        rw [iterate_width] at hy
        rw [iterate_width]
        exact hfr x y hx hy)
    exact hstep.trans ih

/-! Unfolding equations and invariants of the constructor loop. -/

lemma buildLoop_nil (ops : CellOps C) (w x y : Nat) (bd : List C) (pop : Nat) :
    buildLoop ops w [] x y bd pop = .ok (bd, pop, x) := rfl

lemma buildLoop_cons (ops : CellOps C) (w : Nat) (c : Char) (cs : List Char)
    (x y : Nat) (bd : List C) (pop : Nat) :
    buildLoop ops w (c :: cs) x y bd pop =
      if c = '\n' then
        if y = 0 then .ok (bd, pop, x)
        else if y = w then buildLoop ops w cs (x + 1) 0 bd pop
        else .error .assertFail
      else
        if phys w x y < bd.length then
          buildLoop ops w cs x (y + 1) (bd.set (phys w x y) (ops.ofChar c))
            (if ops.isAlive (ops.ofChar c) then pop + 1 else pop)
        else .error .atOutOfRange := rfl

lemma buildLoop_length (ops : CellOps C) (w : Nat) :
    ∀ (input : List Char) (x y : Nat) (bd : List C) (pop : Nat) (res : List C × Nat × Nat),
      buildLoop ops w input x y bd pop = .ok res → res.1.length = bd.length := by
  intro input
  induction input with
  | nil =>
    intro x y bd pop res h
    rw [buildLoop_nil] at h
    cases h
    rfl
  | cons c cs ih =>
    intro x y bd pop res h
    rw [buildLoop_cons] at h
    by_cases hc : c = '\n'
    · rw [if_pos hc] at h
      by_cases hy : y = 0
      · rw [if_pos hy] at h
        cases h
        rfl
      · rw [if_neg hy] at h
        by_cases hyw : y = w
        · rw [if_pos hyw] at h
          exact ih _ _ _ _ _ h
        · rw [if_neg hyw] at h
          simp at h
    · rw [if_neg hc] at h
      by_cases hb : phys w x y < bd.length
      · rw [if_pos hb] at h
        have h2 := ih _ _ _ _ _ h
        rw [h2, List.length_set]
      · rw [if_neg hb] at h
        simp at h

lemma buildLoop_low (ops : CellOps C) (w : Nat) :
    ∀ (input : List Char) (x y : Nat) (bd : List C) (pop : Nat) (res : List C × Nat × Nat)
      (i : Nat) (d : C), i < w + 2 →
      buildLoop ops w input x y bd pop = .ok res → res.1.getD i d = bd.getD i d := by
  intro input
  induction input with
  | nil =>
    intro x y bd pop res i d _ h
    rw [buildLoop_nil] at h
    cases h
    rfl
  | cons c cs ih =>
    intro x y bd pop res i d hi h
    rw [buildLoop_cons] at h
    by_cases hc : c = '\n'
    · rw [if_pos hc] at h
      by_cases hy : y = 0
      · rw [if_pos hy] at h
        cases h
        rfl
      · rw [if_neg hy] at h
        by_cases hyw : y = w
        · rw [if_pos hyw] at h
          exact ih _ _ _ _ _ i d hi h
        · rw [if_neg hyw] at h
          simp at h
    · rw [if_neg hc] at h
      by_cases hb : phys w x y < bd.length
      · rw [if_pos hb] at h
        have h2 := ih _ _ _ _ _ i d hi h
        rw [h2]
        exact getD_set_ne bd (by have := phys_ge w x y; omega) _ _
      · rw [if_neg hb] at h
        simp at h

lemma writeChars_length (ops : CellOps C) (w x : Nat) :
    ∀ (cs : List Char) (bd : List C) (y : Nat),
      (writeChars ops w x bd y cs).length = bd.length := by
  intro cs
  induction cs with
  | nil =>
    intro bd y
    rfl
  | cons c cs ih =>
    intro bd y
    show (writeChars ops w x (bd.set (phys w x y) (ops.ofChar c)) (y + 1) cs).length = _
    rw [ih, List.length_set]

lemma writeLines_length (ops : CellOps C) (w : Nat) :
    ∀ (lines : List (List Char)) (bd : List C) (x : Nat),
      (writeLines ops w bd x lines).length = bd.length := by
  intro lines
  induction lines with
  | nil =>
    intro bd x
    rfl
  | cons line rest ih =>
    intro bd x
    show (writeLines ops w (writeChars ops w x bd 0 line) (x + 1) rest).length = _
    rw [ih, writeChars_length]

lemma buildLoop_chars (ops : CellOps C) (w x : Nat) :
    ∀ (cs rest : List Char) (y : Nat) (bd : List C) (pop : Nat),
      (∀ c ∈ cs, c ≠ '\n') →
      (∀ j, j < cs.length → phys w x (y + j) < bd.length) →
      buildLoop ops w (cs ++ rest) x y bd pop =
        buildLoop ops w rest x (y + cs.length) (writeChars ops w x bd y cs)
          (pop + countAliveChars ops cs) := by
  intro cs
  induction cs with
  | nil =>
    intro rest y bd pop _ _
    simp [writeChars, countAliveChars]
  | cons c cs ih =>
    intro rest y bd pop hno hb
    have hc : ¬ (c = '\n') := hno c (List.mem_cons_self _ _)
    have hb0 : phys w x y < bd.length := by
      have := hb 0 (by simp)
      simpa using this
    rw [List.cons_append, buildLoop_cons, if_neg hc, if_pos hb0]
    rw [ih rest (y + 1) _ _ (fun d hd => hno d (List.mem_cons_of_mem _ hd))
      (fun j hj => by
        rw [List.length_set, show y + 1 + j = y + (j + 1) by omega]
        exact hb (j + 1) (by simp only [List.length_cons]; omega))]
    have hxlen : y + 1 + cs.length = y + (c :: cs).length := by
      simp only [List.length_cons]
      omega
    have hpop : (if ops.isAlive (ops.ofChar c) then pop + 1 else pop) + countAliveChars ops cs =
        pop + countAliveChars ops (c :: cs) := by
      unfold countAliveChars
      simp only [List.countP_cons]
      by_cases ha : ops.isAlive (ops.ofChar c) = true
      · simp only [if_pos ha]
        omega
      · simp only [if_neg ha]
        omega
    rw [hxlen, hpop]
    rfl

lemma buildLoop_encode (ops : CellOps C) (h w : Nat) (hw : 0 < w) :
    ∀ (lines : List (List Char)) (x : Nat) (bd : List C) (pop : Nat),
      (∀ line ∈ lines, ('\n') ∉ line ∧ line.length = w) →
      bd.length = (h + 2) * (w + 2) →
      x + lines.length ≤ h →
      buildLoop ops w (encodeLines lines) x 0 bd pop =
        .ok (writeLines ops w bd x lines, pop + aliveTotal ops lines, x + lines.length) := by
  intro lines
  induction lines with
  | nil =>
    intro x bd pop _ _ _
    simp [encodeLines, buildLoop_nil, writeLines, aliveTotal]
  | cons line rest ih =>
    intro x bd pop hl hbd hle
    have hx : x < h := by
      simp only [List.length_cons] at hle
      omega
    have hline := hl line (List.mem_cons_self _ _)
    have henc : encodeLines (line :: rest) = line ++ ('\n') :: encodeLines rest := by
      unfold encodeLines
      rw [List.map_cons, List.flatten_cons, List.append_assoc]
      rfl
    rw [henc]
    rw [buildLoop_chars ops w x line (('\n') :: encodeLines rest) 0 bd pop
      (fun c hc hceq => hline.1 (hceq ▸ hc))
      (fun j hj => by
        rw [hbd, Nat.zero_add]
        exact phys_lt h w x j hx (by rw [← hline.2]; exact hj))]
    rw [Nat.zero_add, hline.2]
    rw [buildLoop_cons, if_pos rfl, if_neg (by omega), if_pos rfl]
    rw [ih (x + 1) _ _ (fun l2 h2 => hl l2 (List.mem_cons_of_mem _ h2))
      (by rw [writeChars_length]; exact hbd)
      (by simp only [List.length_cons] at hle; omega)]
    have hpop : pop + countAliveChars ops line + aliveTotal ops rest =
        pop + aliveTotal ops (line :: rest) := by
      unfold aliveTotal
      rw [List.map_cons, List.sum_cons]
      omega
    have hxlen : x + 1 + rest.length = x + (line :: rest).length := by
      simp only [List.length_cons]
      omega
    rw [hpop, hxlen]
    rfl

lemma constructLife_encode (ops : CellOps C) (h w : Nat) (hw : 0 < w)
    (lines : List (List Char))
    (hl : ∀ line ∈ lines, ('\n') ∉ line ∧ line.length = w)
    (hh : lines.length = h) :
    constructLife ops (encodeLines lines) h w =
      .ok ⟨h, w, writeLines ops w (List.replicate ((w + 2) * (h + 2)) ops.mkBorder) 0 lines,
        0, aliveTotal ops lines⟩ := by
  unfold constructLife
  rw [buildLoop_encode ops h w hw lines 0 _ 0 hl
    (by rw [List.length_replicate, Nat.mul_comm]) (by omega)]
  simp [hh]

/-! What the constructor leaves in each slot of the board. -/

lemma writeChars_getD_notin (ops : CellOps C) (w x : Nat) :
    ∀ (cs : List Char) (y : Nat) (bd : List C) (i : Nat) (d : C),
      (∀ j, j < cs.length → phys w x (y + j) ≠ i) →
      (writeChars ops w x bd y cs).getD i d = bd.getD i d := by
  intro cs
  induction cs with
  | nil =>
    intro y bd i d _
    rfl
  | cons c cs ih =>
    intro y bd i d hj
    show (writeChars ops w x (bd.set (phys w x y) (ops.ofChar c)) (y + 1) cs).getD i d = _
    rw [ih (y + 1) _ i d (fun j hjlt => by
      rw [show y + 1 + j = y + (j + 1) from by omega]
      exact hj (j + 1) (by simp only [List.length_cons]; omega))]
    exact getD_set_ne bd (by simpa using hj 0 (by simp)) _ _

lemma writeChars_getD_at (ops : CellOps C) (w x : Nat) :
    ∀ (cs : List Char) (y : Nat) (bd : List C) (j : Nat) (d : C) (dc : Char),
      j < cs.length →
      phys w x (y + j) < bd.length →
      (writeChars ops w x bd y cs).getD (phys w x (y + j)) d = ops.ofChar (cs.getD j dc) := by
  intro cs
  induction cs with
  | nil =>
    intro y bd j d dc hj _
    simp at hj
  | cons c cs ih =>
    intro y bd j d dc hj hb
    show (writeChars ops w x (bd.set (phys w x y) (ops.ofChar c)) (y + 1) cs).getD _ _ = _
    cases j with
    | zero =>
      rw [writeChars_getD_notin ops w x cs (y + 1) _ _ d
        (fun j2 _ => phys_col_inj w x (by omega))]
      exact getD_set_self bd _ _ hb
    | succ j2 =>
      rw [show y + (j2 + 1) = y + 1 + j2 from by omega] at hb ⊢
      exact ih (y + 1) _ j2 d dc (by simp only [List.length_cons] at hj; omega)
        (by rw [List.length_set]; exact hb)

lemma writeLines_getD_notrow (ops : CellOps C) (w : Nat) :
    ∀ (lines : List (List Char)) (x : Nat) (bd : List C) (i : Nat) (d : C),
      (∀ line ∈ lines, line.length = w) →
      (∀ x2 y2, x ≤ x2 → x2 < x + lines.length → y2 < w → phys w x2 y2 ≠ i) →
      (writeLines ops w bd x lines).getD i d = bd.getD i d := by
  intro lines
  induction lines with
  | nil =>
    intro x bd i d _ _
    rfl
  | cons line rest ih =>
    intro x bd i d hlen hrow
    show (writeLines ops w (writeChars ops w x bd 0 line) (x + 1) rest).getD i d = _
    rw [ih (x + 1) _ i d (fun l2 h2 => hlen l2 (List.mem_cons_of_mem _ h2))
      (fun x2 y2 hx2 hlt hy2 => hrow x2 y2 (by omega)
        (by simp only [List.length_cons]; omega) hy2)]
    rw [writeChars_getD_notin ops w x line 0 bd i d (fun j hjlt => by
      rw [Nat.zero_add]
      exact hrow x j (Nat.le_refl x) (by simp only [List.length_cons]; omega)
        (by rw [← hlen line (List.mem_cons_self _ _)]; exact hjlt))]

lemma writeLines_getD_at (ops : CellOps C) (w : Nat) :
    ∀ (lines : List (List Char)) (x : Nat) (bd : List C) (x0 y0 : Nat) (d : C) (dc : Char),
      (∀ line ∈ lines, line.length = w) →
      x0 < lines.length → y0 < w →
      phys w (x + x0) y0 < bd.length →
      (writeLines ops w bd x lines).getD (phys w (x + x0) y0) d =
        ops.ofChar ((lines.getD x0 []).getD y0 dc) := by
  intro lines
  induction lines with
  | nil =>
    intro x bd x0 y0 d dc _ hx0 _ _
    simp at hx0
  | cons line rest ih =>
    intro x bd x0 y0 d dc hlen hx0 hy0 hb
    show (writeLines ops w (writeChars ops w x bd 0 line) (x + 1) rest).getD _ _ = _
    cases x0 with
    | zero =>
      rw [writeLines_getD_notrow ops w rest (x + 1) _ _ d
        (fun l2 h2 => hlen l2 (List.mem_cons_of_mem _ h2))
        (fun x2 y2 hx2 _ hy2 =>
          phys_ne_of_ne w hy2 hy0 (by
            intro hpq
            have : x2 = x + 0 := congrArg Prod.fst hpq
            omega))]
      have hb0 : phys w x (0 + y0) < bd.length := by
        rw [Nat.zero_add]
        exact hb
      have := writeChars_getD_at ops w x line 0 bd y0 d dc
        (by rw [hlen line (List.mem_cons_self _ _)]; exact hy0) hb0
      rw [Nat.zero_add] at this
      exact this
    | succ x02 =>
      rw [show x + (x02 + 1) = x + 1 + x02 from by omega] at hb ⊢
      exact ih (x + 1) _ x02 y0 d dc (fun l2 h2 => hlen l2 (List.mem_cons_of_mem _ h2))
        (by simp only [List.length_cons] at hx0; omega) hy0
        (by rw [writeChars_length]; exact hb)

/-! Counting alive cells of the freshly constructed board. -/

lemma count_range_getD (q : Char → Bool) :
    ∀ (line : List Char) (dc : Char),
      (List.range line.length).countP (fun y => q (line.getD y dc)) = line.countP q := by
  intro line
  induction line with
  | nil =>
    intro dc
    rfl
  | cons c cs ih =>
    intro dc
    rw [List.length_cons, List.range_succ_eq_map, List.countP_cons, List.countP_map]
    have hcomp : ((fun y => q ((c :: cs).getD y dc)) ∘ Nat.succ) =
        fun y => q (cs.getD y dc) := rfl
    rw [hcomp, ih]
    rw [List.countP_cons]
    rfl

lemma sum_range_getD (q : Char → Bool) :
    ∀ (lines : List (List Char)),
      ((List.range lines.length).map (fun x => (lines.getD x []).countP q)).sum =
        (lines.map (fun l => l.countP q)).sum := by
  intro lines
  induction lines with
  | nil => rfl
  | cons line rest ih =>
    rw [List.length_cons, List.range_succ_eq_map, List.map_cons, List.sum_cons, List.map_map]
    have hcomp : ((fun x => ((line :: rest).getD x []).countP q) ∘ Nat.succ) =
        fun x => (rest.getD x []).countP q := rfl
    rw [hcomp, ih]
    rw [List.map_cons, List.sum_cons]
    rfl

lemma constructLife_ok_eq (ops : CellOps C) (h w : Nat) (hw : 0 < w)
    (lines : List (List Char))
    (hl : ∀ line ∈ lines, ('\n') ∉ line ∧ line.length = w)
    (hh : lines.length = h) {l : Life C}
    (hok : constructLife ops (encodeLines lines) h w = .ok l) :
    l = ⟨h, w, writeLines ops w (List.replicate ((w + 2) * (h + 2)) ops.mkBorder) 0 lines,
      0, aliveTotal ops lines⟩ := by
  rw [constructLife_encode ops h w hw lines hl hh] at hok
  cases hok
  rfl

lemma constructed_board_length (ops : CellOps C) (h w : Nat) (lines : List (List Char)) :
    (writeLines ops w (List.replicate ((w + 2) * (h + 2)) ops.mkBorder) 0 lines).length =
      (h + 2) * (w + 2) := by
  rw [writeLines_length, List.length_replicate, Nat.mul_comm]

lemma constructed_getD_frame (ops : CellOps C) (h w : Nat)
    (lines : List (List Char))
    (hl : ∀ line ∈ lines, ('\n') ∉ line ∧ line.length = w)
    (hh : lines.length = h) (i : Nat) (hi : i < (h + 2) * (w + 2))
    (hfr : isFrame h w i) (d : C) :
    (writeLines ops w (List.replicate ((w + 2) * (h + 2)) ops.mkBorder) 0 lines).getD i d =
      ops.mkBorder := by
  rw [writeLines_getD_notrow ops w lines 0 _ i d (fun line h2 => (hl line h2).2)
    (fun x2 y2 _ hlt hy2 heq => by
      rw [Nat.zero_add, hh] at hlt
      exact phys_not_frame h w x2 y2 hlt hy2 (heq ▸ hfr))]
  exact getD_replicate _ _ (by rw [Nat.mul_comm]; exact hi)

lemma constructed_getD_interior (ops : CellOps C) (h w : Nat)
    (lines : List (List Char))
    (hl : ∀ line ∈ lines, ('\n') ∉ line ∧ line.length = w)
    (hh : lines.length = h) (x0 y0 : Nat) (hx0 : x0 < h) (hy0 : y0 < w) (d : C) (dc : Char) :
    (writeLines ops w (List.replicate ((w + 2) * (h + 2)) ops.mkBorder) 0 lines).getD
        (phys w x0 y0) d =
      ops.ofChar ((lines.getD x0 []).getD y0 dc) := by
  have hb : phys w (0 + x0) y0 <
      (List.replicate ((w + 2) * (h + 2)) ops.mkBorder).length := by
    rw [Nat.zero_add, List.length_replicate, Nat.mul_comm]
    exact phys_lt h w x0 y0 hx0 hy0
  have := writeLines_getD_at ops w lines 0 _ x0 y0 d dc (fun line h2 => (hl line h2).2)
    (by omega) hy0 hb
  rw [Nat.zero_add] at this
  exact this

lemma constructed_population (ops : CellOps C) (h w : Nat)
    (lines : List (List Char))
    (hl : ∀ line ∈ lines, ('\n') ∉ line ∧ line.length = w)
    (hh : lines.length = h) :
    aliveTotal ops lines = countAliveInterior ops
      ⟨h, w, writeLines ops w (List.replicate ((w + 2) * (h + 2)) ops.mkBorder) 0 lines,
        0, aliveTotal ops lines⟩ := by
  unfold countAliveInterior
  have hcong : ∀ p ∈ rowMajor h w,
      (fun p : Nat × Nat => ops.isAlive
        ((writeLines ops w (List.replicate ((w + 2) * (h + 2)) ops.mkBorder) 0 lines).getD
          (phys w p.1 p.2) ops.mkBorder)) p = true ↔
      (fun p : Nat × Nat =>
        ops.isAlive (ops.ofChar ((lines.getD p.1 []).getD p.2 ' '))) p = true := by
    intro p hp
    rw [mem_rowMajor] at hp
    have hval := constructed_getD_interior ops h w lines hl hh p.1 p.2 hp.1 hp.2
      ops.mkBorder ' '
    simp only [hval]
  rw [List.countP_congr hcong]
  unfold rowMajor
  rw [List.countP_flatten, List.map_map]
  have hrow : ∀ x ∈ List.range h,
      ((List.countP fun p : Nat × Nat =>
        ops.isAlive (ops.ofChar ((lines.getD p.1 []).getD p.2 ' '))) ∘
          fun x => (List.range w).map (fun y => (x, y))) x =
        (fun x => (lines.getD x []).countP (fun ch => ops.isAlive (ops.ofChar ch))) x := by
    intro x hx
    rw [List.mem_range] at hx
    show ((List.range w).map (fun y => (x, y))).countP _ = _
    rw [List.countP_map]
    have hcomp : ((fun p : Nat × Nat =>
        ops.isAlive (ops.ofChar ((lines.getD p.1 []).getD p.2 ' '))) ∘ fun y => (x, y)) =
        fun y => ops.isAlive (ops.ofChar ((lines.getD x []).getD y ' ')) := rfl
    rw [hcomp]
    have hxlen : x < lines.length := by omega
    have hlenx : (lines.getD x []).length = w := by
      rw [getD_eq_getElem lines [] hxlen]
      exact (hl _ (lines.getElem_mem hxlen)).2
    rw [← hlenx]
    exact count_range_getD (fun ch => ops.isAlive (ops.ofChar ch)) (lines.getD x []) ' '
  rw [List.map_congr_left hrow]
  rw [← hh, sum_range_getD]
  unfold aliveTotal countAliveChars
  rfl

/-! Inputs with a line of the wrong length abort the constructor. -/

lemma buildLoop_chars_or (ops : CellOps C) (w x : Nat) :
    ∀ (cs rest : List Char) (y : Nat) (bd : List C) (pop : Nat),
      (∀ c ∈ cs, c ≠ '\n') →
      (∃ e, buildLoop ops w (cs ++ rest) x y bd pop = .error e) ∨
      (∃ bd2 pop2, buildLoop ops w (cs ++ rest) x y bd pop =
        buildLoop ops w rest x (y + cs.length) bd2 pop2) := by
  intro cs
  induction cs with
  | nil =>
    intro rest y bd pop _
    right
    exact ⟨bd, pop, by simp⟩
  | cons c cs ih =>
    intro rest y bd pop hno
    have hc : ¬ (c = '\n') := hno c (List.mem_cons_self _ _)
    rw [List.cons_append, buildLoop_cons, if_neg hc]
    by_cases hb : phys w x y < bd.length
    · rw [if_pos hb]
      rcases ih rest (y + 1) (bd.set (phys w x y) (ops.ofChar c))
        (if ops.isAlive (ops.ofChar c) then pop + 1 else pop)
        (fun d hd => hno d (List.mem_cons_of_mem _ hd)) with he | hok
      · exact Or.inl he
      · right
        obtain ⟨bd2, pop2, heq⟩ := hok
        refine ⟨bd2, pop2, ?_⟩
        rw [heq]
        have hy : y + 1 + cs.length = y + (c :: cs).length := by
          simp only [List.length_cons]
          omega
        rw [hy]
    · rw [if_neg hb]
      exact Or.inl ⟨.atOutOfRange, rfl⟩

lemma jagged_buildLoop_err (ops : CellOps C) (w : Nat) :
    ∀ (lines : List (List Char)) (x : Nat) (bd : List C) (pop : Nat),
      (∀ line ∈ lines, ('\n') ∉ line ∧ line ≠ []) →
      (∃ line ∈ lines, line.length ≠ w) →
      ∃ e, buildLoop ops w (encodeLines lines) x 0 bd pop = .error e := by
  intro lines
  induction lines with
  | nil =>
    intro x bd pop _ hbad
    obtain ⟨line, hmem, _⟩ := hbad
    exact absurd hmem (List.not_mem_nil _)
  | cons line rest ih =>
    intro x bd pop hl hbad
    have hline := hl line (List.mem_cons_self _ _)
    have henc : encodeLines (line :: rest) = line ++ ('\n') :: encodeLines rest := by
      unfold encodeLines
      rw [List.map_cons, List.flatten_cons, List.append_assoc]
      rfl
    rw [henc]
    rcases buildLoop_chars_or ops w x line (('\n') :: encodeLines rest) 0 bd pop
      (fun c hc hceq => hline.1 (hceq ▸ hc)) with he | hok
    · exact he
    · obtain ⟨bd2, pop2, heq⟩ := hok
      rw [heq]
      have hlen0 : line.length ≠ 0 := fun h0 => hline.2 (List.length_eq_zero.1 h0)
      rw [buildLoop_cons, if_pos rfl, if_neg (by omega)]
      by_cases hlw : 0 + line.length = w
      · rw [if_pos hlw]
        have hbad2 : ∃ l2 ∈ rest, l2.length ≠ w := by
          obtain ⟨l2, hmem, hne⟩ := hbad
          rcases List.mem_cons.1 hmem with rfl | hmem2
          · exact absurd (by omega) hne
          · exact ⟨l2, hmem2, hne⟩
        exact ih (x + 1) bd2 pop2 (fun l2 h2 => hl l2 (List.mem_cons_of_mem _ h2)) hbad2
      · rw [if_neg hlw]
        exact ⟨.assertFail, rfl⟩

lemma jagged_constructLife_err (ops : CellOps C) (h w : Nat) (lines : List (List Char))
    (hl : ∀ line ∈ lines, ('\n') ∉ line ∧ line ≠ [])
    (hbad : ∃ line ∈ lines, line.length ≠ w) :
    ∃ e, constructLife ops (encodeLines lines) h w = .error e := by
  obtain ⟨e, he⟩ := jagged_buildLoop_err ops w lines 0
    (List.replicate ((w + 2) * (h + 2)) ops.mkBorder) 0 hl hbad
  refine ⟨e, ?_⟩
  unfold constructLife
  rw [he]

/-! Claim theorems. -/

/-- C1: `evolve_all` performs a synchronous update: on any well-formed
board, the resulting board equals the one produced by the pure function
`syncBoard` that maps every interior cell of the old board independently
(new value computed from the old cell and its eight old-board
neighbors), so the in-place row-major overwrite order is immaterial. -/
theorem step_refines_sync_map (ops : CellOps C) (l : Life C)
    (hlen : l.board.length = (l.height + 2) * (l.width + 2)) :
    (evolveAll ops l).board = syncBoard ops l.height l.width l.board :=
  evolveAll_board_eq ops l hlen

theorem step_refines_sync_map_witness :
    oneByOne.board.length = (oneByOne.height + 2) * (oneByOne.width + 2) ∧
    (evolveAll (conwayOps false) oneByOne).board =
      syncBoard (conwayOps false) oneByOne.height oneByOne.width oneByOne.board :=
  ⟨by decide, step_refines_sync_map (conwayOps false) oneByOne (by decide)⟩

/-- C2: on the spec's own suggested test (a hand-built 3 by 3 board with
a distinct marker in every physical slot), the eight neighbors gathered
for the center interior cell `(1, 1)` (physical slot 12) are the slots
`[11, 17, 13, 7, 16, 18, 8, 6]`, i.e. `[left, down, right, up,
bottom-left, bottom-right, top-right, top-left]` — not the order
`[7, 13, 17, 11, 8, 18, 16, 6]` = `[up, right, down, left, top-right,
bottom-right, bottom-left, top-left]` that the claim (and the source's
own comments) state.  Element 0 is the cell one column left, not one
row above. -/
theorem neighbor_gather_order_transposed :
    phys 3 1 1 = 12 ∧
    neighborsAt markOps (List.range 25) 3 1 1 = [11, 17, 13, 7, 16, 18, 8, 6] ∧
    ([11, 17, 13, 7, 16, 18, 8, 6] : List Nat) ≠ [7, 13, 17, 11, 8, 18, 16, 6] :=
  ⟨rfl, rfl, by decide⟩

/-- C3 counterexample: the input `..`, `..`, then a trailing `*` not
terminated by a newline, on a 2 by 2 board, constructs successfully
(the trailing cell is written into the bottom border row), and the
resulting `population` is 1 while the number of alive interior cells
is 0 — so after construction `population` need not equal the alive
interior count. -/
theorem construct_population_mismatch :
    constructLife (conwayOps false) badInput 2 2 = .ok badLife ∧
    badLife.population = 1 ∧
    countAliveInterior (conwayOps false) badLife = 0 :=
  ⟨rfl, by decide, by decide⟩

/-- C3 amended: after a successful construction from an input consisting
of exactly `height` newline-terminated lines of exactly `width`
characters, `generation = 0` and `population` equals the count of alive
interior cells; and after every `evolve_all` on a well-formed board,
`generation` has increased by exactly 1 and `population` is a full
recount of the alive interior cells of the new board.  (The unamended
construction clause fails only when the input ends in a trailing
partial line, as the counterexample shows.) -/
theorem generation_population_exact :
    (∀ {C : Type} (ops : CellOps C) (h w : Nat) (lines : List (List Char)) (l : Life C),
      0 < w → (∀ line ∈ lines, ('\n') ∉ line ∧ line.length = w) → lines.length = h →
      constructLife ops (encodeLines lines) h w = .ok l →
      l.generation = 0 ∧ l.population = countAliveInterior ops l) ∧
    (∀ {C : Type} (ops : CellOps C) (l : Life C),
      l.board.length = (l.height + 2) * (l.width + 2) →
      (evolveAll ops l).generation = l.generation + 1 ∧
      (evolveAll ops l).population = countAliveInterior ops (evolveAll ops l)) := by
  constructor
  · intro C ops h w lines l hw hl hh hok
    have heq := constructLife_ok_eq ops h w hw lines hl hh hok
    subst heq
    exact ⟨rfl, constructed_population ops h w lines hl hh⟩
  · intro C ops l hlen
    exact ⟨evolveAll_generation ops l, evolveAll_pop_eq ops l hlen⟩

theorem generation_population_exact_witness :
    ((0 < 1) ∧
      constructLife (conwayOps false) (encodeLines [['*']]) 1 1 = .ok starLife ∧
      starLife.generation = 0 ∧
      starLife.population = countAliveInterior (conwayOps false) starLife) ∧
    (oneByOne.board.length = (oneByOne.height + 2) * (oneByOne.width + 2) ∧
      (evolveAll (conwayOps false) oneByOne).generation = oneByOne.generation + 1 ∧
      (evolveAll (conwayOps false) oneByOne).population =
        countAliveInterior (conwayOps false) (evolveAll (conwayOps false) oneByOne)) :=
  ⟨⟨by decide, rfl,
    generation_population_exact.1 (conwayOps false) 1 1 [['*']] starLife
      (by decide) (by decide) (by decide) rfl⟩,
   ⟨by decide,
    generation_population_exact.2 (conwayOps false) oneByOne (by decide)⟩⟩

/-- C4 (the `ConwayCell::evolve` body is absent from the sources and is
modelled from the spec): a non-border cell evolves to an alive cell iff
it is alive with exactly 2 or 3 alive neighbors, or dead with exactly 3
alive neighbors, border neighbors counting as dead; evolve on a border
cell is a no-op, so a dead border cell stays a dead border cell. -/
theorem conway_evolve_rule (c : ConwayCell) (ns : List ConwayCell) :
    (c.border = false →
      ((ConwayCell.evolve c ns).alive = true ↔
        ((c.alive = true ∧ (conwayLiveCount ns = 2 ∨ conwayLiveCount ns = 3)) ∨
          (c.alive = false ∧ conwayLiveCount ns = 3)))) ∧
    (c.border = true → ConwayCell.evolve c ns = c) ∧
    (c.border = true → c.alive = false →
      (ConwayCell.evolve c ns).border = true ∧ (ConwayCell.evolve c ns).alive = false) := by
  refine ⟨?_, ?_, ?_⟩
  · intro hb
    unfold ConwayCell.evolve
    rw [if_neg (by rw [hb]; exact Bool.false_ne_true)]
    cases hca : c.alive <;>
      simp [hca, Bool.or_eq_true, Bool.and_eq_true, beq_iff_eq]
  · intro hb
    unfold ConwayCell.evolve
    rw [if_pos hb]
  · intro hb ha
    unfold ConwayCell.evolve
    rw [if_pos hb]
    exact ⟨hb, ha⟩

theorem conway_evolve_rule_witness :
    ((⟨false, false⟩ : ConwayCell).border = false) ∧
    (ConwayCell.evolve ⟨false, false⟩ threeAlive).alive = true :=
  ⟨rfl, ((conway_evolve_rule ⟨false, false⟩ threeAlive).1 rfl).2
    (Or.inr ⟨rfl, by decide⟩)⟩

/-- C5 counterexample: construction itself can overwrite a frame slot:
on the `badInput` stream the trailing `*` is written into physical slot
13, which lies on the bottom frame row of the 2 by 2 board, yet
construction succeeds — afterwards that border position holds an alive,
non-border cell. -/
theorem border_overwritten_by_input :
    constructLife (conwayOps false) badInput 2 2 = .ok badLife ∧
    isFrame 2 2 13 ∧
    (badLife.board.getD 13 (ConwayCell.ofBorder false true)).border = false ∧
    (badLife.board.getD 13 (ConwayCell.ofBorder false true)).alive = true := by
  refine ⟨rfl, ?_, by decide, by decide⟩
  unfold isFrame
  omega

/-- C5 amended: for boards constructed from exactly `height`
newline-terminated lines of `width` characters, every physical frame
slot holds exactly the border cell `T(true)` used to fill the storage,
and it still does after any number of `evolve_all` steps; moreover on
any board whatsoever, no step ever overwrites a frame slot (the scan
addresses only interior coordinates).  The cell `T(true)` has
`border == true`; its `alive` flag is whatever the uninitialized
constructor left there. -/
theorem frame_cells_invariant :
    (∀ {C : Type} (ops : CellOps C) (h w : Nat) (lines : List (List Char)) (l : Life C)
      (n i : Nat) (d : C), 0 < w →
      (∀ line ∈ lines, ('\n') ∉ line ∧ line.length = w) → lines.length = h →
      constructLife ops (encodeLines lines) h w = .ok l →
      i < (h + 2) * (w + 2) → isFrame h w i →
      ((evolveAll ops)^[n] l).board.getD i d = ops.mkBorder) ∧
    (∀ {C : Type} (ops : CellOps C) (l : Life C) (n i : Nat) (d : C),
      isFrame l.height l.width i →
      ((evolveAll ops)^[n] l).board.getD i d = l.board.getD i d) := by
  constructor
  · intro C ops h w lines l n i d hw hl hh hok hi hfr
    have heq := constructLife_ok_eq ops h w hw lines hl hh hok
    subst heq
    have hfr2 : ∀ x y : Nat, x < h → y < w → phys w x y ≠ i := fun x y hx hy heq2 =>
      phys_not_frame h w x y hx hy (heq2 ▸ hfr)
    rw [iterate_getD_frame ops n _ i d hfr2]
    exact constructed_getD_frame ops h w lines hl hh i hi hfr d
  · intro C ops l n i d hfr
    exact iterate_getD_frame ops n l i d (fun x y hx hy heq2 =>
      phys_not_frame l.height l.width x y hx hy (heq2 ▸ hfr))

theorem frame_cells_invariant_witness :
    ((0 < 1) ∧
      constructLife (conwayOps false) (encodeLines [['*']]) 1 1 = .ok starLife ∧
      isFrame 1 1 0 ∧
      ((evolveAll (conwayOps false))^[1] starLife).board.getD 0 ⟨true, false⟩ =
        (conwayOps false).mkBorder) ∧
    (isFrame oneByOne.height oneByOne.width 0 ∧
      ((evolveAll (conwayOps false))^[2] oneByOne).board.getD 0 ⟨true, false⟩ =
        oneByOne.board.getD 0 ⟨true, false⟩) :=
  ⟨⟨by decide, rfl, Or.inl rfl,
    frame_cells_invariant.1 (conwayOps false) 1 1 [['*']] starLife 1 0 ⟨true, false⟩
      (by decide) (by decide) (by decide) rfl (by decide) (Or.inl rfl)⟩,
   ⟨Or.inl rfl,
    frame_cells_invariant.2 (conwayOps false) oneByOne 2 0 ⟨true, false⟩
      (Or.inl rfl)⟩⟩

/-- C6 counterexample: `at(-1, 0)` does not fail: its flat index
`(-1+1)*(width+2)+0+1 = 1` is inside the storage, so `vector::at`
succeeds and returns the border cell stored at physical slot 1. -/
theorem at_neg_coord_succeeds :
    atCell (conwayOps false) oneByOne (-1) 0 = some (ConwayCell.ofBorder false true) :=
  rfl

/-- C6 amended: `at(x, y)` is only checked against the flat physical
storage: every coordinate in the logical range `[0,height) x [0,width)`
succeeds, but so does `at(-1, 0)`, whose flat index 1 lands on the top
frame; `at` fails only when the flat index `(x+1)*(width+2)+y+1` falls
outside `[0, (height+2)*(width+2))`. -/
theorem at_flat_bounds_only (ops : CellOps C) (l : Life C)
    (hlen : l.board.length = (l.height + 2) * (l.width + 2)) :
    (∀ x y : Int, 0 ≤ x → x < (l.height : Int) → 0 ≤ y → y < (l.width : Int) →
      (atCell ops l x y).isSome = true) ∧
    (atCell ops l (-1) 0).isSome = true := by
  constructor
  · intro x y hx0 hxh hy0 hyw
    unfold atCell
    have h1 : 0 ≤ atIdx l.width x y := by
      unfold atIdx
      have hm : 0 < (x + 1) * ((l.width : Int) + 2) := mul_pos (by omega) (by omega)
      omega
    have h2 : atIdx l.width x y < (l.board.length : Int) := by
      unfold atIdx
      rw [hlen]
      push_cast
      have hmul : (x + 1) * ((l.width : Int) + 2) ≤
          (l.height : Int) * ((l.width : Int) + 2) :=
        mul_le_mul_of_nonneg_right (by omega) (by omega)
      have hexp : ((l.height : Int) + 2) * ((l.width : Int) + 2) =
          (l.height : Int) * ((l.width : Int) + 2) + 2 * ((l.width : Int) + 2) := by
        ring
      omega
    rw [if_pos ⟨h1, h2⟩]
    rfl
  · unfold atCell
    have hidx : atIdx l.width (-1) 0 = 1 := by
      unfold atIdx
      ring
    rw [hidx]
    have h4 : (4 : Int) ≤ (l.board.length : Int) := by
      rw [hlen]
      push_cast
      have hm : (2 : Int) * 2 ≤ ((l.height : Int) + 2) * ((l.width : Int) + 2) :=
        mul_le_mul (by omega) (by omega) (by omega) (by omega)
      omega
    rw [if_pos ⟨by omega, by omega⟩]
    rfl

theorem at_flat_bounds_only_witness :
    (oneByOne.board.length = (oneByOne.height + 2) * (oneByOne.width + 2)) ∧
    (atCell (conwayOps false) oneByOne 0 0).isSome = true ∧
    (atCell (conwayOps false) oneByOne (-1) 0).isSome = true :=
  ⟨by decide,
   (at_flat_bounds_only (conwayOps false) oneByOne (by decide)).1 0 0
     (by decide) (by decide) (by decide) (by decide),
   (at_flat_bounds_only (conwayOps false) oneByOne (by decide)).2⟩

/-- C7 counterexample: the border-flagged constructor
`Cell(bool border_) : acell(new ConwayCell(border_))` always wraps a
`ConwayCell`, so for the Fredkin rule family the produced border cell is
of the Conway family, not the same family. -/
theorem border_cell_family_counter :
    (Cell.ofBorder false true).family = RuleFamily.conway ∧
    RuleFamily.conway ≠ RuleFamily.fredkin :=
  ⟨rfl, by decide⟩

/-- C7 amended: whatever parse constructor and `operator+` the `Cell`
family uses (in particular when the interior cells are Fredkin), every
slot of the top frame row of a successfully constructed `Life<Cell>`
board holds the Conway-family cell `Cell(true)`; the border constructor
ignores the configured family. -/
theorem border_cell_always_conway (parse : Char → Cell) (pl : Cell → List Cell → Cell)
    (indet : Bool) (input : List Char) (h w : Nat) (l : Life Cell)
    (hok : constructLife (cellOpsWith parse pl indet) input h w = .ok l) :
    ∀ i, i ≤ w + 1 →
      l.board.getD i fredkinJunk = Cell.ofBorder indet true ∧
      (l.board.getD i fredkinJunk).family = RuleFamily.conway := by
  intro i hi
  unfold constructLife at hok
  cases hres : buildLoop (cellOpsWith parse pl indet) w input 0 0
      (List.replicate ((w + 2) * (h + 2)) (cellOpsWith parse pl indet).mkBorder) 0 with
  | error e =>
    rw [hres] at hok
    simp at hok
  | ok res =>
    rw [hres] at hok
    obtain ⟨bd, pop, x⟩ := res
    change (if x = h then Except.ok (⟨h, w, bd, 0, pop⟩ : Life Cell)
      else Except.error BuildErr.assertFail) = Except.ok l at hok
    by_cases hx : x = h
    · rw [if_pos hx] at hok
      cases hok
      have hlow := buildLoop_low (cellOpsWith parse pl indet) w input 0 0 _ 0
        (bd, pop, x) i fredkinJunk (by omega) hres
      have hrep : (List.replicate ((w + 2) * (h + 2))
          (cellOpsWith parse pl indet).mkBorder).getD i fredkinJunk =
          (cellOpsWith parse pl indet).mkBorder :=
        getD_replicate _ _ (by
          have h2 : w + 2 ≤ (w + 2) * (h + 2) := Nat.le_mul_of_pos_right _ (by omega)
          omega)
      refine ⟨?_, ?_⟩
      · show bd.getD i fredkinJunk = _
        rw [hlow, hrep]
        rfl
      · show (bd.getD i fredkinJunk).family = _
        rw [hlow, hrep]
        rfl
    · rw [if_neg hx] at hok
      simp at hok

theorem border_cell_always_conway_witness :
    constructLife (cellOpsWith constParse constPlus false) [] 0 0 = .ok cellLife00 ∧
    (1 ≤ 0 + 1) ∧
    cellLife00.board.getD 1 fredkinJunk = Cell.ofBorder false true ∧
    (cellLife00.board.getD 1 fredkinJunk).family = RuleFamily.conway :=
  ⟨rfl, by decide,
   (border_cell_always_conway constParse constPlus false [] 0 0 cellLife00 rfl 1
     (by decide)).1,
   (border_cell_always_conway constParse constPlus false [] 0 0 cellLife00 rfl 1
     (by decide)).2⟩

/-- C8 counterexample: an input with zero lines is accepted (no
`EmptyInput` failure): with `h = w = 0` the constructor returns a board
rather than an error. -/
theorem empty_input_accepted :
    (constructLife (conwayOps false) ([] : List Char) 0 0).toOption.isSome = true :=
  rfl

/-- C8 amended: a malformed input aborts construction by a failed
`assert` (there are no named `JaggedInput` or `EmptyInput` error kinds):
if any (nonempty, newline-free) line's length differs from `width`,
construction returns an error, and an empty input is rejected exactly
when `height` is not 0; in every failure case no board is produced. -/
theorem jagged_or_empty_aborts :
    (∀ {C : Type} (ops : CellOps C) (h w : Nat) (lines : List (List Char)),
      (∀ line ∈ lines, ('\n') ∉ line ∧ line ≠ []) →
      (∃ line ∈ lines, line.length ≠ w) →
      ∃ e, constructLife ops (encodeLines lines) h w = .error e) ∧
    (∀ {C : Type} (ops : CellOps C) (h w : Nat), h ≠ 0 →
      ∃ e, constructLife ops ([] : List Char) h w = .error e) := by
  constructor
  · intro C ops h w lines hl hbad
    exact jagged_constructLife_err ops h w lines hl hbad
  · intro C ops h w hne
    refine ⟨.assertFail, ?_⟩
    unfold constructLife
    rw [buildLoop_nil]
    exact if_neg (fun h0 => hne h0.symm)

theorem jagged_or_empty_aborts_witness :
    (∀ line ∈ [['.', '.'], ['.']], ('\n') ∉ line ∧ line ≠ []) ∧
    (∃ line ∈ [['.', '.'], ['.']], line.length ≠ 2) ∧
    (∃ e, constructLife (conwayOps false)
      (encodeLines [['.', '.'], ['.']]) 2 2 = .error e) ∧
    (1 ≠ 0) ∧
    (∃ e, constructLife (conwayOps false) ([] : List Char) 1 0 = .error e) :=
  ⟨by decide, by decide,
   jagged_or_empty_aborts.1 (conwayOps false) 2 2 [['.', '.'], ['.']]
     (by decide) (by decide),
   by decide,
   jagged_or_empty_aborts.2 (conwayOps false) 1 0 (by decide)⟩

/-- C9 counterexample: on the board built from `badInput` (whose bottom
frame was overwritten during construction), the neighbor at position 1
of the ordered gather for the edge interior cell `(1, 0)` falls on the
frame yet is an alive non-border cell, so an interior edge cell does not
always receive border cells as its frame neighbors. -/
theorem frame_neighbor_not_border :
    constructLife (conwayOps false) badInput 2 2 = .ok badLife ∧
    (13 ∈ neighborIdxs 2 1 0) ∧
    isFrame 2 2 13 ∧
    ((neighborsAt (conwayOps false) badLife.board 2 1 0).getD 1
      (ConwayCell.ofBorder false true)).border = false ∧
    ((neighborsAt (conwayOps false) badLife.board 2 1 0).getD 1
      (ConwayCell.ofBorder false true)).alive = true := by
  refine ⟨rfl, by decide, ?_, by decide, by decide⟩
  unfold isFrame
  omega

/-- C9 amended: for every interior coordinate of every board, all eight
neighbor indices computed by `evolve_all` lie within the physical
storage bounds, so no neighbor read can fail; and on boards constructed
from exactly `height` full lines (and stepped any number of times), the
neighbors that fall on the frame are the border cells placed there. -/
theorem neighbor_reads_in_bounds :
    (∀ (h w x y : Nat), x < h → y < w →
      ∀ i ∈ neighborIdxs w x y, i < (h + 2) * (w + 2)) ∧
    (∀ {C : Type} (ops : CellOps C) (h w : Nat) (lines : List (List Char)) (l : Life C)
      (n x y i : Nat) (d : C), 0 < w →
      (∀ line ∈ lines, ('\n') ∉ line ∧ line.length = w) → lines.length = h →
      constructLife ops (encodeLines lines) h w = .ok l →
      x < h → y < w → i ∈ neighborIdxs w x y → isFrame h w i →
      ((evolveAll ops)^[n] l).board.getD i d = ops.mkBorder) := by
  constructor
  · exact fun h w x y hx hy => neighborIdx_lt h w x y hx hy
  · intro C ops h w lines l n x y i d hw hl hh hok hx hy hmem hfr
    have hi : i < (h + 2) * (w + 2) := neighborIdx_lt h w x y hx hy i hmem
    have heq := constructLife_ok_eq ops h w hw lines hl hh hok
    subst heq
    have hfr2 : ∀ x2 y2 : Nat, x2 < h → y2 < w → phys w x2 y2 ≠ i := fun x2 y2 hx2 hy2 heq2 =>
      phys_not_frame h w x2 y2 hx2 hy2 (heq2 ▸ hfr)
    rw [iterate_getD_frame ops n _ i d hfr2]
    exact constructed_getD_frame ops h w lines hl hh i hi hfr d

theorem neighbor_reads_in_bounds_witness :
    ((0 < 1) ∧ (0 < 1) ∧ (3 ∈ neighborIdxs 1 0 0) ∧ 3 < (1 + 2) * (1 + 2)) ∧
    (constructLife (conwayOps false) (encodeLines [['*']]) 1 1 = .ok starLife ∧
      isFrame 1 1 3 ∧
      ((evolveAll (conwayOps false))^[0] starLife).board.getD 3 ⟨true, false⟩ =
        (conwayOps false).mkBorder) :=
  ⟨⟨by decide, by decide, by decide,
    neighbor_reads_in_bounds.1 1 1 0 0 (by decide) (by decide) 3 (by decide)⟩,
   ⟨rfl, Or.inr (Or.inr (Or.inl rfl)),
    neighbor_reads_in_bounds.2 (conwayOps false) 1 1 [['*']] starLife 0 0 0 3
      ⟨true, false⟩ (by decide) (by decide) (by decide) rfl (by decide) (by decide)
      (by decide) (Or.inr (Or.inr (Or.inl rfl)))⟩⟩

/-- C10: on a 1 by 1 board, one increment from `begin() = (0, 0)` (one
increment per interior cell) yields the iterator `(1, 0)`, while
`end()` is `(0, 1)`; indeed no number of increments below 100 ever makes
the iterator equal to `end()`, because `operator++` wraps `y` to 0
before it can ever equal `width`. -/
theorem iterator_end_unreachable :
    Nat.iterate (iterInc 1) 1 beginIter = (1, 0) ∧
    endIter 1 1 = (0, 1) ∧
    (∀ k, k < 100 → Nat.iterate (iterInc 1) k beginIter ≠ endIter 1 1) :=
  ⟨rfl, rfl, by decide⟩

end GameOfLife
